import Mathlib

/-!
Verification of the colleges HTTP API core (src/index.js) against its
natural-language specification.

The JavaScript source is shallowly embedded: strings are lists of
characters (`Str`), records are a structure with the three named fields
plus an association list for the remaining CSV columns, handlers are pure
functions, and the NodeCache instance is an explicit key/value/expiry
list threaded through a small operational model.  Where the original
code recurses on data whose size only decreases (regex scanning), the
embedding uses an explicit fuel argument initialised to the input length
so that every definition reduces by kernel computation.
-/

/-- Strings of the JavaScript program, as lists of characters. -/
abbrev Str := List Char

/-- Whitespace test used by `String.prototype.trim` (the common ASCII cases). -/
def isWS (c : Char) : Bool := c == ' ' || c == '\t' || c == '\n' || c == '\r'

/-- Embedding of `String.prototype.trim`: drop whitespace from both ends. -/
def jsTrim (s : Str) : Str :=
  ((s.dropWhile isWS).reverse.dropWhile isWS).reverse

/-- For the regex `\:[^>]*\)` (greedy `[^>]*`): given the text following a
colon, the end position of the match is the LAST `)` that is reachable
without crossing a `>` character.  Returns its index, or `none` if the
colon cannot start a match here. -/
def lastParen : Str → Option Nat
  | [] => none
  | c :: rest =>
    if c == '>' then none
    else match lastParen rest with
      | some j => some (j + 1)
      | none => if c == ')' then some 0 else none

/-- One left-to-right pass of `name.replace(/\:[^>]*\)/ig, "")`:
at each unmatched character copy it and continue; at a `:` that starts a
match, skip to the character after the matched `)` and continue there
(JavaScript global replace resumes scanning at the end of each match).
`fuel` bounds the recursion and is initialised to the input length. -/
def stripColonAux : Nat → Str → Str
  | _, [] => []
  | 0, _ :: _ => []
  | fuel + 1, c :: rest =>
    if c == ':' then
      match lastParen rest with
      | some j => stripColonAux fuel (rest.drop (j + 1))
      | none => c :: stripColonAux fuel rest
    else c :: stripColonAux fuel rest

/-- Embedding of `name.replace(/\:[^>]*\)/ig, "")` from `cleanCollegeName`. -/
def stripColon (s : Str) : Str := stripColonAux s.length s

/-- Embedding of `.replace(/(\(Id)/ig, "")`: remove every occurrence of the
three-character pattern `(I`/`i` `D`/`d`, scanning left to right and
resuming after each removed occurrence. -/
def removeIdAux : Nat → Str → Str
  | _, [] => []
  | 0, _ :: _ => []
  | fuel + 1, c :: rest =>
    if c == '(' then
      match rest with
      | i :: d :: rest2 =>
        if (i == 'I' || i == 'i') && (d == 'D' || d == 'd') then removeIdAux fuel rest2
        else c :: removeIdAux fuel rest
      | _ => c :: removeIdAux fuel rest
    else c :: removeIdAux fuel rest

/-- Embedding of `.replace(/(\(Id)/ig, "")` with fuel initialised to the length. -/
def removeId (s : Str) : Str := removeIdAux s.length s

/-- Embedding of the `cleanCollegeName` helper (src/index.js line 49-51). -/
def cleanCollegeName (s : Str) : Str := jsTrim (removeId (stripColon s))

/-- Does the string start with a case-insensitive `(Id` marker? -/
def idHead : Str → Bool
  | c :: i :: d :: _ => c == '(' && (i == 'I' || i == 'i') && (d == 'D' || d == 'd')
  | _ => false

/-- Does the string contain a case-insensitive `(Id` marker anywhere? -/
def containsIdMarker : Str → Bool
  | [] => false
  | c :: rest => idHead (c :: rest) || containsIdMarker rest

/-- Does the string contain a colon? -/
def hasColon : Str → Bool
  | [] => false
  | c :: rest => c == ':' || hasColon rest

/-- Index of the FIRST closing parenthesis, used by the spec-described
(non-greedy) reading of the colon annotation removal. -/
def firstParen : Str → Option Nat
  | [] => none
  | c :: rest => if c == ')' then some 0 else (firstParen rest).map (· + 1)

/-- Modelled from the spec: removal of a parenthetical annotation that
begins with a colon and "ends at the next closing parenthesis". Identical
scanning scheme to `stripColonAux`, but each match stops at the FIRST `)`
after the colon. -/
def specStripColonAux : Nat → Str → Str
  | _, [] => []
  | 0, _ :: _ => []
  | fuel + 1, c :: rest =>
    if c == ':' then
      match firstParen rest with
      | some j => specStripColonAux fuel (rest.drop (j + 1))
      | none => c :: specStripColonAux fuel rest
    else c :: specStripColonAux fuel rest

/-- Modelled from the spec: the colon-annotation pass of the spec's Name
Normalizer contract ("ends at the next closing parenthesis"). -/
def specStripColon (s : Str) : Str := specStripColonAux s.length s

/-- Modelled from the spec: the Name Normalizer as the spec words it —
remove colon annotations ending at the next closing parenthesis, remove
`(Id` markers, then trim. -/
def cleanCollegeNameSpec (s : Str) : Str := jsTrim (removeId (specStripColon s))

/-- Embedding of `String.prototype.toLowerCase` for one character (ASCII
range, the case relevant to the data and keywords). -/
def lowerChar (c : Char) : Char :=
  if 65 ≤ c.toNat ∧ c.toNat ≤ 90 then Char.ofNat (c.toNat + 32) else c

/-- Embedding of `String.prototype.toLowerCase`. -/
def lowerList (s : Str) : Str := s.map lowerChar

/-- Does `b` start with `a`? (helper for the substring test). -/
def leadsWith : Str → Str → Bool
  | [], _ => true
  | _ :: _, [] => false
  | a :: as, b :: bs => a == b && leadsWith as bs

/-- Embedding of `String.prototype.includes`: does `hay` contain `needle`
as a contiguous substring? -/
def hasSubstr : Str → Str → Bool
  | [], needle => needle.isEmpty
  | h :: rest, needle => leadsWith needle (h :: rest) || hasSubstr rest needle

/-- One CSV row (one college).  `name`, `state`, `district` are the fields
the handlers read; `extra` carries the remaining CSV columns, which the
object spread `{...college}` copies verbatim. -/
structure College where
  name : Str
  state : Str
  district : Str
  extra : List (Str × Str)
deriving DecidableEq

/-- Embedding of `{...college, name: cleanCollegeName(college.name)}`. -/
def normalizeCollege (c : College) : College := { c with name := cleanCollegeName c.name }

/-- The pre-pagination result of the `/colleges/search` handler:
`colleges.filter(c => c.name.toLowerCase().includes(keyword.toLowerCase())).map(...)`. -/
def searchFilter (colleges : List College) (keyword : Str) : List College :=
  (colleges.filter fun c => hasSubstr (lowerList c.name) (lowerList keyword)).map
    normalizeCollege

/-- The pre-pagination result of the `/colleges/state/:state` handler:
case-insensitive exact match on the state field. -/
def stateFilter (colleges : List College) (st : Str) : List College :=
  (colleges.filter fun c => lowerList c.state == lowerList st).map normalizeCollege

/-- The pre-pagination result of the `/colleges/district/:district` handler. -/
def districtFilter (colleges : List College) (d : Str) : List College :=
  (colleges.filter fun c => lowerList c.district == lowerList d).map normalizeCollege

/-- Embedding of `Array.prototype.slice(start, stop)` for the in-range
arguments produced by the handlers. -/
def jsSlice {α : Type} (l : List α) (start stop : Nat) : List α :=
  (l.drop start).take (stop - start)

/-- Embedding of `Math.ceil(n / m)` on numbers produced by the handlers:
`none` models the non-finite result JavaScript produces when `m = 0`
(`Infinity`, or `NaN` for `0/0`). -/
def jsCeilDivOpt (n m : Nat) : Option Nat :=
  if m = 0 then none else some ((n + m - 1) / m)

/-- The response envelope `{data, page, limit, total, totalPages}`. -/
structure Envelope where
  data : List College
  page : Nat
  limit : Nat
  total : Nat
  totalPages : Option Nat
deriving DecidableEq

/-- The shared pagination/envelope computation of the three filtered
handlers: `result.slice((page-1)*limit, page*limit)` plus the totals. -/
def mkEnvelope (result : List College) (page limit : Nat) : Envelope :=
  { data := jsSlice result ((page - 1) * limit) (page * limit)
    page := page
    limit := limit
    total := result.length
    totalPages := jsCeilDivOpt result.length limit }

/-- The full `/colleges/search` response for validated parameters. -/
def searchResponse (colleges : List College) (keyword : Str) (page limit : Nat) : Envelope :=
  mkEnvelope (searchFilter colleges keyword) page limit

/-- The full `/colleges/state/:state` response. -/
def stateResponse (colleges : List College) (st : Str) (page limit : Nat) : Envelope :=
  mkEnvelope (stateFilter colleges st) page limit

/-- The full `/colleges/district/:district` response. -/
def districtResponse (colleges : List College) (d : Str) (page limit : Nat) : Envelope :=
  mkEnvelope (districtFilter colleges d) page limit

/-- Embedding of `[...new Set(l)]`: keep the first occurrence of each
element, in insertion order.  Fuel is initialised to the length. -/
def jsSetDedupAux : Nat → List Str → List Str
  | _, [] => []
  | 0, _ :: _ => []
  | fuel + 1, a :: l => a :: jsSetDedupAux fuel (l.filter (· != a))

/-- Embedding of `[...new Set(l)]`. -/
def jsSetDedup (l : List Str) : List Str := jsSetDedupAux l.length l

/-- Lexicographic comparison of strings by character code, the order
`Array.prototype.sort()` uses on an array of strings. -/
def lexLe : Str → Str → Bool
  | [], _ => true
  | _ :: _, [] => false
  | a :: as, b :: bs =>
    if a.toNat < b.toNat then true
    else if b.toNat < a.toNat then false
    else lexLe as bs

/-- The sort order of `Array.prototype.sort()` on strings, as a relation. -/
def strLe (a b : Str) : Prop := lexLe a b = true

instance : DecidableRel strLe := fun a b => inferInstanceAs (Decidable (lexLe a b = true))

/-- Embedding of the `/allstates` handler body:
`[...new Set(colleges.map(c => c.state))].sort()`. -/
def allStatesList (colleges : List College) : List Str :=
  List.insertionSort strLe (jsSetDedup (colleges.map College.state))

/-- Embedding of the `/districts/:state` handler body. -/
def districtsList (colleges : List College) (st : Str) : List Str :=
  List.insertionSort strLe
    (jsSetDedup ((colleges.filter fun c => lowerList c.state == lowerList st).map
      College.district))

/-- The decimal digit character for `d < 10`. -/
def digitChar (d : Nat) : Char := Char.ofNat (48 + d)

/-- Decimal representation of a natural number (fuelled). -/
def natDigitsAux : Nat → Nat → Str
  | 0, _ => []
  | fuel + 1, n =>
    if n < 10 then [digitChar n]
    else natDigitsAux fuel (n / 10) ++ [digitChar (n % 10)]

/-- Decimal representation of a natural number, as produced by a JavaScript
template literal `${n}` for the integer parameters. -/
def natDigits (n : Nat) : Str := natDigitsAux (n + 1) n

/-- Decimal value of a digit string (left inverse of `natDigits`). -/
def digitsToNat (l : Str) : Nat := l.foldl (fun a c => 10 * a + (c.toNat - 48)) 0

/-- A string with no colon character (parameter segments of cache keys). -/
def ColonFree (l : Str) : Prop := ∀ c ∈ l, c ≠ ':'

/-- Split a string at its FIRST colon, if any. -/
def splitFirstColon : Str → Option (Str × Str)
  | [] => none
  | c :: rest =>
    if c == ':' then some ([], rest)
    else (splitFirstColon rest).map fun p => (c :: p.1, p.2)

/-- Decode the `value:page:limit` tail of a cache key by reading the last
two colon-separated segments from the right. -/
def decode3 (rest : Str) : Option (Str × Nat × Nat) :=
  match splitFirstColon rest.reverse with
  | none => none
  | some (lrev, r2) =>
    match splitFirstColon r2 with
    | none => none
    | some (prev, krev) =>
      some (krev.reverse, digitsToNat prev.reverse, digitsToNat lrev.reverse)

/-- One logical query: endpoint identity plus every parameter that affects
the result.  Integer parameters are the validated `page`/`limit` values. -/
inductive Query where
  | search (keyword : Str) (page limit : Nat)
  | state (st : Str) (page limit : Nat)
  | district (d : Str) (page limit : Nat)
  | allstates
  | districts (st : Str)
deriving DecidableEq

def searchWord : Str := ['s', 'e', 'a', 'r', 'c', 'h']
def stateWord : Str := ['s', 't', 'a', 't', 'e']
def districtWord : Str := ['d', 'i', 's', 't', 'r', 'i', 'c', 't']
def districtsWord : Str := ['d', 'i', 's', 't', 'r', 'i', 'c', 't', 's']
def allstatesWord : Str := ['a', 'l', 'l', 's', 't', 'a', 't', 'e', 's']

/-- The cache key the handlers build for each query, e.g.
`search:${keyword}:${page}:${limit}` (src/index.js lines 73, 111, 149,
177, 191). -/
def keyOf : Query → Str
  | .search k p l => searchWord ++ ':' :: (k ++ ':' :: (natDigits p ++ ':' :: natDigits l))
  | .state s p l => stateWord ++ ':' :: (s ++ ':' :: (natDigits p ++ ':' :: natDigits l))
  | .district d p l => districtWord ++ ':' :: (d ++ ':' :: (natDigits p ++ ':' :: natDigits l))
  | .allstates => allstatesWord
  | .districts s => districtsWord ++ ':' :: s

/-- Decoder for cache keys: the word before the first colon identifies the
endpoint, the last two segments are the numeric parameters.  Existence of
this left inverse proves the keys collision-free. -/
def decodeKey (s : Str) : Option Query :=
  match splitFirstColon s with
  | none => if s = allstatesWord then some .allstates else none
  | some (w, rest) =>
    if w = searchWord then (decode3 rest).map fun t => .search t.1 t.2.1 t.2.2
    else if w = stateWord then (decode3 rest).map fun t => .state t.1 t.2.1 t.2.2
    else if w = districtWord then (decode3 rest).map fun t => .district t.1 t.2.1 t.2.2
    else if w = districtsWord then some (.districts rest)
    else none

/-- A value stored in the NodeCache: either a response envelope or the
string list of the aggregate endpoints. -/
inductive CacheVal where
  | envelope (e : Envelope)
  | strList (l : List Str)
deriving DecidableEq

/-- One NodeCache entry: key, stored value, absolute expiry time. -/
structure CacheEntry where
  key : Str
  val : CacheVal
  expiry : Nat
deriving DecidableEq

/-- NodeCache `get`: a value is returned only while unexpired. -/
def cacheGet (entries : List CacheEntry) (key : Str) (now : Nat) : Option CacheVal :=
  (entries.find? fun e => e.key == key).bind fun e =>
    if now < e.expiry then some e.val else none

/-- NodeCache `set` with `stdTTL: 600` seconds (src/index.js line 34). -/
def cacheSet (entries : List CacheEntry) (key : Str) (v : CacheVal) (now : Nat) :
    List CacheEntry :=
  ⟨key, v, now + 600⟩ :: entries

/-- Direct recomputation of a query, bypassing the cache. -/
def evalQuery (colleges : List College) : Query → CacheVal
  | .search k p l => .envelope (searchResponse colleges k p l)
  | .state s p l => .envelope (stateResponse colleges s p l)
  | .district d p l => .envelope (districtResponse colleges d p l)
  | .allstates => .strList (allStatesList colleges)
  | .districts s => .strList (districtsList colleges s)

/-- One handler invocation: consult the cache under the constructed key,
on a miss compute the response and store it. -/
def runQuery (colleges : List College) (st : List CacheEntry) (now : Nat) (q : Query) :
    CacheVal × List CacheEntry :=
  match cacheGet st (keyOf q) now with
  | some v => (v, st)
  | none => (evalQuery colleges q, cacheSet st (keyOf q) (evalQuery colleges q) now)

/-- A sequence of handler invocations at arbitrary times, threading the
cache state, collecting the served responses. -/
def runQueries (colleges : List College) (st : List CacheEntry) :
    List (Nat × Query) → List CacheVal
  | [] => []
  | (now, q) :: rest =>
    (runQuery colleges st now q).1 :: runQueries colleges (runQuery colleges st now q).2 rest

/-- Cache invariant: every stored entry equals the direct recomputation of
any query whose key it carries. -/
def CacheGood (colleges : List College) (st : List CacheEntry) : Prop :=
  ∀ e ∈ st, ∀ q : Query, keyOf q = e.key → e.val = evalQuery colleges q

/-- Outcome of a handler behind express-validator: either HTTP 400 with the
offending field names, or a JSON response. -/
inductive HandlerOutcome where
  | badRequest (fields : List Str)
  | ok (e : Envelope)
deriving DecidableEq

/-- Parse a non-empty all-digit string (the shape of a valid integer query
parameter). -/
def parseNatDigits (l : Str) : Option Nat :=
  if l.isEmpty then none
  else if l.all (fun c => 48 ≤ c.toNat && c.toNat ≤ 57) then some (digitsToNat l)
  else none

/-- Embedding of `body(field).optional().isInt({min, max})`: the check an
express-validator chain applies to a value read from the REQUEST BODY. -/
def checkOptIntField (v : Option Str) (lo : Nat) (hi : Option Nat) : Bool :=
  match v with
  | none => true
  | some s =>
    match parseNatDigits s with
    | none => false
    | some n => decide (lo ≤ n) && (match hi with | none => true | some h => decide (n ≤ h))

def pageField : Str := ['p', 'a', 'g', 'e']
def limitField : Str := ['l', 'i', 'm', 'i', 't']

/-- Embedding of the GET `/colleges/state/:state` handler (src/index.js
lines 100-136), cache elided: the express-validator chains are
`body('page')`/`body('limit')` and therefore check the request BODY, while
the values used by the handler come from `req.query` (modelled by their
numeric value, `none` for an absent parameter). -/
def stateHandler (colleges : List College) (st : Str) (bodyPage bodyLimit : Option Str)
    (queryPage queryLimit : Option Nat) : HandlerOutcome :=
  let errs := (if checkOptIntField bodyPage 1 none then [] else [pageField]) ++
    (if checkOptIntField bodyLimit 1 (some 100) then [] else [limitField])
  if errs.isEmpty then
    .ok (mkEnvelope (stateFilter colleges st) (queryPage.getD 1) (queryLimit.getD 10))
  else .badRequest errs

/-- Startup state: rows already pushed into the `colleges` array, rows the
CSV stream has yet to deliver, and whether the `end` event has fired. -/
structure LoadState where
  loaded : List College
  pending : List College
  done : Bool
deriving DecidableEq

/-- Events of the asynchronous CSV load (src/index.js lines 39-46): each
`data` event appends one row; `end` fires when no rows remain. -/
inductive loadStep : LoadState → LoadState → Prop
  | row (c : College) (l p : List College) :
      loadStep ⟨l, c :: p, false⟩ ⟨l ++ [c], p, false⟩
  | finish (l : List College) : loadStep ⟨l, [], false⟩ ⟨l, [], true⟩

/-- States reachable during startup.  `app.listen` (line 214) runs at module
load, before any CSV event, so a request can observe ANY reachable state's
`loaded` array. -/
inductive loadReach (rows : List College) : LoadState → Prop
  | init : loadReach rows ⟨[], rows, false⟩
  | step {s s' : LoadState} : loadReach rows s → loadStep s s' → loadReach rows s'

-- Concrete data used by witnesses and counterexamples.

def demoC1 : College := ⟨['A', 'l', 'p', 'h', 'a'], ['T', 'S'], ['D', '1'], []⟩
def demoC2 : College := ⟨['B', 'e', 't', 'a'], ['T', 'S'], ['D', '2'], []⟩
def demoColleges : List College := [demoC1, demoC2]

/-- The pagination contract (claim C1) for one filtered result set and one
validated `(page, limit)` pair: the returned page is the slice at offset
`(page-1)*limit` of length at most `limit`; an offset beyond the result
count yields an empty page; and the pages `1..totalPages` concatenate back
to the full filtered result set. -/
def PaginationOK (result : List College) (page limit : Nat) : Prop :=
  (mkEnvelope result page limit).data = (result.drop ((page - 1) * limit)).take limit ∧
  (mkEnvelope result page limit).data.length ≤ limit ∧
  (result.length ≤ (page - 1) * limit → (mkEnvelope result page limit).data = []) ∧
  ∃ tp, (mkEnvelope result page limit).totalPages = some tp ∧
    ((List.range tp).map fun i => (mkEnvelope result (i + 1) limit).data).flatten = result

/-- The totals contract (claim C7): `totalPages` is defined, equals the
ceiling of `total / limit` (characterised arithmetically), and is `0` when
`total` is `0`. -/
def TotalPagesOK (result : List College) (page limit : Nat) : Prop :=
  ∃ tp, (mkEnvelope result page limit).totalPages = some tp ∧
    tp = (result.length + limit - 1) / limit ∧
    result.length ≤ tp * limit ∧
    (result.length = 0 → tp = 0) ∧
    (0 < result.length → (tp - 1) * limit < result.length)

/-- Cache transparency (claim C2): keys are collision-free, every trace of
handler invocations serves exactly the directly recomputed responses, and
a `get` immediately after a `set` returns the stored value. -/
def CacheTransparencyOK (colleges : List College) (q q' : Query) (qs : List (Nat × Query))
    (st : List CacheEntry) (key : Str) (v : CacheVal) (now : Nat) : Prop :=
  q = q' ∧
  runQueries colleges [] qs = qs.map (fun p => evalQuery colleges p.2) ∧
  cacheGet (cacheSet st key v now) key now = some v

/-- What a request really observes during startup (amended claim C4): some
prefix of the final dataset, and exactly the full dataset once loading has
finished. -/
def LoadObsOK (rows : List College) (s : LoadState) : Prop :=
  (∃ t, s.loaded ++ t = rows) ∧ (s.done = true → s.loaded = rows)

-- ### Helper lemmas about the normalizer

theorem dropWhile_dropWhile (p : Char → Bool) (l : Str) :
    (l.dropWhile p).dropWhile p = l.dropWhile p := by
  induction l with
  | nil => rfl
  | cons a t ih =>
    by_cases h : p a
    · simp [List.dropWhile_cons, h, ih]
    · simp [List.dropWhile_cons, h]

theorem dropWhile_head_false (p : Char → Bool) (l : Str) (c : Char) (t : Str)
    (h : l.dropWhile p = c :: t) : p c = false := by
  induction l with
  | nil => simp at h
  | cons a l ih =>
    by_cases ha : p a
    · rw [List.dropWhile_cons, if_pos ha] at h; exact ih h
    · rw [List.dropWhile_cons, if_neg ha] at h
      cases h; simpa using ha

theorem dropWhile_append_last (p : Char → Bool) (c : Char) (hc : p c = false) :
    ∀ l : Str, ∃ t, (l ++ [c]).dropWhile p = t ++ [c] := by
  intro l
  induction l with
  | nil => exact ⟨[], by simp [List.dropWhile_cons, hc]⟩
  | cons a l ih =>
    by_cases ha : p a
    · simpa [List.dropWhile_cons, ha] using ih
    · exact ⟨a :: l, by simp [List.dropWhile_cons, ha]⟩

/-- `jsTrim` is idempotent. -/
theorem jsTrim_idem (s : Str) : jsTrim (jsTrim s) = jsTrim s := by
  unfold jsTrim
  set A := s.dropWhile isWS with hA
  set B := A.reverse.dropWhile isWS with hB
  have step1 : B.reverse.dropWhile isWS = B.reverse := by
    cases hAc : A with
    | nil => simp [hB, hAc]
    | cons a t =>
      have ha : isWS a = false := dropWhile_head_false isWS s a t (hA ▸ hAc)
      have hBe : B = (t.reverse ++ [a]).dropWhile isWS := by
        rw [hB, hAc, List.reverse_cons]
      obtain ⟨u, hu⟩ := dropWhile_append_last isWS a ha t.reverse
      rw [hBe, hu]
      simp [List.dropWhile_cons, ha]
  rw [step1, List.reverse_reverse, hB, dropWhile_dropWhile]

theorem stripColonAux_of_noColon :
    ∀ (fuel : Nat) (s : Str), s.length ≤ fuel → hasColon s = false →
      stripColonAux fuel s = s := by
  intro fuel
  induction fuel with
  | zero =>
    intro s hlen _
    cases s with
    | nil => rfl
    | cons c r => simp at hlen
  | succ fuel ih =>
    intro s hlen hcol
    cases s with
    | nil => rfl
    | cons c r =>
      have hc : (c == ':') = false := by
        simp [hasColon] at hcol
        simpa using hcol.1
      have hr : hasColon r = false := by
        simp [hasColon] at hcol
        simpa using hcol.2
      simp only [stripColonAux, hc, Bool.false_eq_true, if_false]
      rw [ih r (by simp only [List.length_cons] at hlen; omega) hr]

/-- If the input has no colon at all, the colon-regex pass is the identity. -/
theorem stripColon_of_noColon (s : Str) (h : hasColon s = false) :
    stripColon s = s :=
  stripColonAux_of_noColon s.length s le_rfl h

theorem removeIdAux_of_noMarker :
    ∀ (fuel : Nat) (s : Str), s.length ≤ fuel → containsIdMarker s = false →
      removeIdAux fuel s = s := by
  intro fuel
  induction fuel with
  | zero =>
    intro s hlen _
    cases s with
    | nil => rfl
    | cons c r => simp at hlen
  | succ fuel ih =>
    intro s hlen hmk
    cases s with
    | nil => rfl
    | cons c r =>
      have hparts : idHead (c :: r) = false ∧ containsIdMarker r = false := by
        simpa [containsIdMarker] using hmk
      have hlen' : r.length ≤ fuel := by
        simp only [List.length_cons] at hlen; omega
      by_cases hc : (c == '(') = true
      · cases r with
        | nil => simp [removeIdAux, hc, ih [] (by simp) (by simp [containsIdMarker])]
        | cons i r1 =>
          cases r1 with
          | nil =>
            simp only [removeIdAux, hc, if_true]
            rw [ih _ hlen' hparts.2]
          | cons d r2 =>
            have hpat : ((i == 'I' || i == 'i') && (d == 'D' || d == 'd')) = false := by
              have := hparts.1
              simpa [idHead, hc] using this
            simp only [removeIdAux, hc, if_true, hpat, Bool.false_eq_true, if_false]
            rw [ih _ hlen' hparts.2]
      · have hc' : (c == '(') = false := by simpa using hc
        simp only [removeIdAux, hc', Bool.false_eq_true, if_false]
        rw [ih _ hlen' hparts.2]

/-- If the input has no case-insensitive `(Id` marker, that pass is the identity. -/
theorem removeId_of_noMarker (s : Str) (h : containsIdMarker s = false) :
    removeId s = s :=
  removeIdAux_of_noMarker s.length s le_rfl h

-- ### Claim C5: the Name Normalizer contract

/-- C5 counterexample: the claim says a colon annotation "ends at the next
closing parenthesis", but the source regex `\:[^>]*\)` is greedy.  On
`":x) y)"` the code removes through the LAST parenthesis and returns `""`,
while the behaviour the claim describes returns `"y)"`. -/
theorem cleanCollegeName_not_next_paren :
    cleanCollegeName [':', 'x', ')', ' ', 'y', ')'] = [] ∧
    cleanCollegeNameSpec [':', 'x', ')', ' ', 'y', ')'] = ['y', ')'] ∧
    cleanCollegeName [':', 'x', ')', ' ', 'y', ')'] ≠
      cleanCollegeNameSpec [':', 'x', ')', ' ', 'y', ')'] := by
  refine ⟨by decide, by decide, by decide⟩

/-- C5 (amended): the colon-annotation removal is greedy — it extends to the
last closing parenthesis reachable without crossing a `>` — rather than
stopping at the next closing parenthesis; the normalizer is a total
function; and on any input containing neither a colon nor a
case-insensitive `(Id` marker it returns the trimmed input unchanged. -/
theorem cleanCollegeName_no_pattern_trim (s : Str)
    (h1 : hasColon s = false) (h2 : containsIdMarker s = false) :
    cleanCollegeName s = jsTrim s := by
  unfold cleanCollegeName
  rw [stripColon_of_noColon s h1, removeId_of_noMarker s h2]

/-- Witness for the amended C5 theorem at a concrete input. -/
theorem cleanCollegeName_no_pattern_trim_witness :
    hasColon [' ', 'A', 'b', 'c', ' '] = false ∧
    containsIdMarker [' ', 'A', 'b', 'c', ' '] = false ∧
    cleanCollegeName [' ', 'A', 'b', 'c', ' '] = jsTrim [' ', 'A', 'b', 'c', ' '] :=
  ⟨by decide, by decide,
    cleanCollegeName_no_pattern_trim [' ', 'A', 'b', 'c', ' '] (by decide) (by decide)⟩

-- ### Claim C8: idempotence of the Name Normalizer

/-- C8 counterexample: the normalizer is NOT idempotent.  Removing the
middle `(Id` of `"((IdId"` concatenates the remaining characters into a
fresh `(Id`, which only a second application removes: one application
yields `"(Id"`, two applications yield `""`. -/
theorem cleanCollegeName_not_idempotent :
    cleanCollegeName (cleanCollegeName ['(', '(', 'I', 'd', 'I', 'd']) ≠
      cleanCollegeName ['(', '(', 'I', 'd', 'I', 'd'] := by
  decide

/-- C8 (amended): the normalizer is idempotent on every input whose
normalized output contains no colon and no case-insensitive `(Id` marker
(a second application can differ only by removing such a freshly created
pattern, as in the `"((IdId"` counterexample). -/
theorem cleanCollegeName_idem_of_clean_output (s : Str)
    (h1 : hasColon (cleanCollegeName s) = false)
    (h2 : containsIdMarker (cleanCollegeName s) = false) :
    cleanCollegeName (cleanCollegeName s) = cleanCollegeName s := by
  conv_lhs => rw [cleanCollegeName, stripColon_of_noColon _ h1, removeId_of_noMarker _ h2]
  rw [cleanCollegeName, jsTrim_idem]

/-- Witness for the amended C8 theorem at a concrete input. -/
theorem cleanCollegeName_idem_of_clean_output_witness :
    hasColon (cleanCollegeName ['A', 'b', 'c']) = false ∧
    containsIdMarker (cleanCollegeName ['A', 'b', 'c']) = false ∧
    cleanCollegeName (cleanCollegeName ['A', 'b', 'c']) = cleanCollegeName ['A', 'b', 'c'] :=
  ⟨by decide, by decide, cleanCollegeName_idem_of_clean_output ['A', 'b', 'c'] (by decide) (by decide)⟩

-- ### Pagination lemmas (claims C1 and C7)

theorem natCeil_succ (n m : Nat) (hm : 1 ≤ m) (hn : 1 ≤ n) :
    (n + m - 1) / m = (n - 1) / m + 1 := by
  have h : n + m - 1 = (n - 1) + m := by omega
  rw [h, Nat.add_div_right _ (by omega)]

theorem mkEnvelope_data_drop_take (result : List College) (p limit : Nat) :
    (mkEnvelope result (p + 1) limit).data = (result.drop (p * limit)).take limit := by
  show jsSlice result ((p + 1 - 1) * limit) ((p + 1) * limit) = _
  have h1 : p + 1 - 1 = p := rfl
  rw [h1, jsSlice, Nat.succ_mul, Nat.add_sub_cancel_left]

theorem flatten_pages (m : Nat) (hm : 1 ≤ m) :
    ∀ (k : Nat) (l : List College), (l.length + m - 1) / m = k →
      ((List.range k).map fun i => (l.drop (i * m)).take m).flatten = l := by
  intro k
  induction k with
  | zero =>
    intro l hk
    have hlt : l.length + m - 1 < m := by
      by_contra hge
      push_neg at hge
      have : 1 ≤ (l.length + m - 1) / m := (Nat.one_le_div_iff (by omega)).mpr hge
      omega
    have hl : l.length = 0 := by omega
    rw [List.eq_nil_of_length_eq_zero hl]
    rfl
  | succ k ih =>
    intro l hk
    have hpos : 1 ≤ l.length := by
      by_contra h0
      push_neg at h0
      have hl : l.length = 0 := by omega
      rw [hl] at hk
      rw [Nat.div_eq_of_lt (by omega)] at hk
      exact absurd hk (by omega)
    have hsucc : (l.length + m - 1) / m = (l.length - 1) / m + 1 :=
      natCeil_succ l.length m hm hpos
    have hk1 : (l.length - 1) / m = k := by omega
    have hk' : ((l.drop m).length + m - 1) / m = k := by
      rw [List.length_drop]
      rcases le_or_lt m l.length with hml | hml
      · have he : l.length - m + m - 1 = l.length - 1 := by omega
        rw [he, hk1]
      · have he : l.length - m = 0 := by omega
        rw [he, Nat.div_eq_of_lt (by omega)]
        have : (l.length - 1) / m = 0 := Nat.div_eq_of_lt (by omega)
        omega
    have hfun : (fun i => (l.drop (Nat.succ i * m)).take m) =
        (fun i => ((l.drop m).drop (i * m)).take m) := by
      funext i
      rw [List.drop_drop, Nat.succ_mul, Nat.add_comm]
    rw [List.range_succ_eq_map, List.map_cons, List.map_map, List.flatten_cons]
    have hcomp : ((List.range k).map ((fun i => (l.drop (i * m)).take m) ∘ Nat.succ)) =
        ((List.range k).map fun i => ((l.drop m).drop (i * m)).take m) := by
      rw [show ((fun i => (l.drop (i * m)).take m) ∘ Nat.succ) =
        (fun i => (l.drop (Nat.succ i * m)).take m) from rfl, hfun]
    rw [hcomp, ih (l.drop m) hk']
    simp [List.take_append_drop]

/-- C1: for every filtered result set and validated `page` (≥ 1) and
`limit` (in `[1,100]`), the returned page is the sub-sequence at offset
`(page-1)*limit` of length at most `limit`; an offset beyond the result
count yields an empty page, not an error; and the concatenation of pages
`1..totalPages` reconstructs the full filtered result set exactly. -/
theorem pagination_contract (result : List College) (page limit : Nat)
    (hp : 1 ≤ page) (h1 : 1 ≤ limit) (h2 : limit ≤ 100) :
    PaginationOK result page limit := by
  obtain ⟨p, rfl⟩ : ∃ p, page = p + 1 := ⟨page - 1, by omega⟩
  have hdata := mkEnvelope_data_drop_take result p limit
  have hp1 : p + 1 - 1 = p := rfl
  refine ⟨by rw [hdata, hp1], ?_, ?_, ?_⟩
  · rw [hdata]
    exact (List.length_take _ _).trans_le (Nat.min_le_left _ _)
  · intro hoff
    rw [hdata]
    rw [hp1] at hoff
    rw [List.drop_eq_nil_of_le hoff, List.take_nil]
  · refine ⟨(result.length + limit - 1) / limit, ?_, ?_⟩
    · show jsCeilDivOpt result.length limit = _
      rw [jsCeilDivOpt, if_neg (by omega)]
    · have hfun : (fun i => (mkEnvelope result (i + 1) limit).data) =
          (fun i => (result.drop (i * limit)).take limit) := by
        funext i
        exact mkEnvelope_data_drop_take result i limit
      rw [hfun]
      exact flatten_pages limit h1 _ result rfl

/-- Witness for C1 at a concrete result set and page/limit pair. -/
theorem pagination_contract_witness :
    1 ≤ 1 ∧ 1 ≤ 2 ∧ 2 ≤ 100 ∧ PaginationOK demoColleges 1 2 :=
  ⟨by decide, by decide, by decide,
    pagination_contract demoColleges 1 2 (by decide) (by decide) (by decide)⟩

/-- C7: `totalPages` equals `ceil(total / limit)` for every `limit ≥ 1`
(characterised by `total ≤ tp*limit` and `(tp-1)*limit < total`), and is
`0` when `total` is `0`. -/
theorem totals_contract (result : List College) (page limit : Nat) (hl : 1 ≤ limit) :
    TotalPagesOK result page limit := by
  refine ⟨(result.length + limit - 1) / limit, ?_, rfl, ?_, ?_, ?_⟩
  · show jsCeilDivOpt result.length limit = _
    rw [jsCeilDivOpt, if_neg (by omega)]
  · have hdm := Nat.div_add_mod (result.length + limit - 1) limit
    have hmod : (result.length + limit - 1) % limit < limit :=
      Nat.mod_lt _ (by omega)
    rw [Nat.mul_comm]
    omega
  · intro h0
    rw [h0, Nat.div_eq_of_lt (by omega)]
  · intro hpos
    rw [natCeil_succ result.length limit hl hpos, Nat.add_sub_cancel]
    have hdm := Nat.div_add_mod (result.length - 1) limit
    rw [Nat.mul_comm]
    omega

/-- Witness for C7 at a concrete result set and limit. -/
theorem totals_contract_witness : 1 ≤ 3 ∧ TotalPagesOK demoColleges 1 3 :=
  ⟨by decide, totals_contract demoColleges 1 3 (by decide)⟩

-- ### Claim C6: keyword search semantics

theorem leadsWith_iff (needle hay : Str) :
    leadsWith needle hay = true ↔ ∃ post, hay = needle ++ post := by
  induction needle generalizing hay with
  | nil => simp [leadsWith]
  | cons a as ih =>
    cases hay with
    | nil => simp [leadsWith]
    | cons b bs =>
      rw [leadsWith, Bool.and_eq_true, beq_iff_eq, ih]
      constructor
      · rintro ⟨rfl, post, rfl⟩
        exact ⟨post, rfl⟩
      · rintro ⟨post, hp⟩
        rw [List.cons_append] at hp
        injection hp with hb hbs
        exact ⟨hb.symm, post, hbs⟩

theorem hasSubstr_iff (hay needle : Str) :
    hasSubstr hay needle = true ↔ ∃ pre post, hay = pre ++ needle ++ post := by
  induction hay with
  | nil =>
    rw [hasSubstr, List.isEmpty_iff]
    constructor
    · rintro rfl
      exact ⟨[], [], rfl⟩
    · rintro ⟨pre, post, h⟩
      cases pre with
      | cons a t => exact absurd h (by simp)
      | nil =>
        cases needle with
        | nil => rfl
        | cons b u => exact absurd h (by simp)
  | cons h rest ih =>
    rw [hasSubstr, Bool.or_eq_true, ih, leadsWith_iff]
    constructor
    · rintro (⟨post, hpost⟩ | ⟨pre, post, hps⟩)
      · exact ⟨[], post, by simpa using hpost⟩
      · exact ⟨h :: pre, post, by simp [hps]⟩
    · rintro ⟨pre, post, hps⟩
      cases pre with
      | nil => exact Or.inl ⟨post, by simpa using hps⟩
      | cons a pre2 =>
        rw [List.cons_append, List.cons_append] at hps
        injection hps with ha hrest
        exact Or.inr ⟨pre2, post, by simpa using hrest⟩

/-- C6: `SearchByKeyword` is a case-insensitive substring match on the name
field: membership in the result set is exactly "some stored record's
lowercased name contains the lowercased keyword", the result is the
normalization of a sublist of the dataset (dataset order preserved, Name
Normalizer applied), and searching `"abc"` and `"ABC"` give identical
result sets on every dataset. -/
theorem search_keyword_semantics (colleges : List College) :
    searchFilter colleges ['a', 'b', 'c'] = searchFilter colleges ['A', 'B', 'C'] ∧
    (∀ (k : Str) (c' : College), c' ∈ searchFilter colleges k ↔
      ∃ c, c ∈ colleges ∧ (∃ pre post, lowerList c.name = pre ++ lowerList k ++ post) ∧
        c' = normalizeCollege c) ∧
    (∀ k : Str, ∃ l, List.Sublist l colleges ∧
      searchFilter colleges k = l.map normalizeCollege) := by
  refine ⟨?_, ?_, ?_⟩
  · have h1 : lowerList ['a', 'b', 'c'] = ['a', 'b', 'c'] := by decide
    have h2 : lowerList ['A', 'B', 'C'] = ['a', 'b', 'c'] := by decide
    rw [searchFilter, searchFilter, h1, h2]
  · intro k c'
    rw [searchFilter]
    simp only [List.mem_map, List.mem_filter]
    constructor
    · rintro ⟨c, ⟨hc, hsub⟩, rfl⟩
      exact ⟨c, hc, (hasSubstr_iff _ _).mp hsub, rfl⟩
    · rintro ⟨c, hc, hsub, rfl⟩
      exact ⟨c, ⟨hc, (hasSubstr_iff _ _).mpr hsub⟩, rfl⟩
  · intro k
    exact ⟨_, List.filter_sublist _, rfl⟩

-- ### Claim C9: distinct state and district listings

theorem lexLe_total : ∀ a b : Str, lexLe a b = true ∨ lexLe b a = true := by
  intro a
  induction a with
  | nil => intro b; exact Or.inl rfl
  | cons x xs ih =>
    intro b
    cases b with
    | nil => exact Or.inr rfl
    | cons y ys =>
      by_cases h1 : x.toNat < y.toNat
      · left; rw [lexLe, if_pos h1]
      · by_cases h2 : y.toNat < x.toNat
        · right; rw [lexLe, if_pos h2]
        · rcases ih ys with h | h
          · left; rw [lexLe, if_neg h1, if_neg h2]; exact h
          · right; rw [lexLe, if_neg h2, if_neg h1]; exact h

theorem lexLe_trans :
    ∀ a b c : Str, lexLe a b = true → lexLe b c = true → lexLe a c = true := by
  intro a
  induction a with
  | nil => intro b c _ _; rfl
  | cons x xs ih =>
    intro b c hab hbc
    cases b with
    | nil => exact absurd hab (by simp [lexLe])
    | cons y ys =>
      cases c with
      | nil => exact absurd hbc (by simp [lexLe])
      | cons z zs =>
        rw [lexLe] at hab hbc ⊢
        by_cases hxy : x.toNat < y.toNat
        · by_cases hyz : y.toNat < z.toNat
          · rw [if_pos (by omega)]
          · rw [if_neg hyz] at hbc
            by_cases hzy : z.toNat < y.toNat
            · rw [if_pos hzy] at hbc; exact absurd hbc (by simp)
            · rw [if_pos (by omega)]
        · rw [if_neg hxy] at hab
          by_cases hyx : y.toNat < x.toNat
          · rw [if_pos hyx] at hab; exact absurd hab (by simp)
          · rw [if_neg hyx] at hab
            by_cases hyz : y.toNat < z.toNat
            · rw [if_pos (by omega)]
            · rw [if_neg hyz] at hbc
              by_cases hzy : z.toNat < y.toNat
              · rw [if_pos hzy] at hbc; exact absurd hbc (by simp)
              · rw [if_neg hzy] at hbc
                rw [if_neg (by omega), if_neg (by omega)]
                exact ih ys zs hab hbc

theorem jsSetDedupAux_mem :
    ∀ (fuel : Nat) (l : List Str), l.length ≤ fuel →
      ∀ x, x ∈ jsSetDedupAux fuel l ↔ x ∈ l := by
  intro fuel
  induction fuel with
  | zero =>
    intro l hlen x
    cases l with
    | nil => simp [jsSetDedupAux]
    | cons a t => simp at hlen
  | succ fuel ih =>
    intro l hlen x
    cases l with
    | nil => simp [jsSetDedupAux]
    | cons a t =>
      have hlen' : (t.filter (· != a)).length ≤ fuel := by
        have := List.length_filter_le (· != a) t
        simp only [List.length_cons] at hlen
        omega
      rw [jsSetDedupAux]
      simp only [List.mem_cons, ih _ hlen', List.mem_filter]
      constructor
      · rintro (rfl | ⟨hx, _⟩)
        · exact .inl rfl
        · exact .inr hx
      · rintro (rfl | hx)
        · exact .inl rfl
        · by_cases hxa : x = a
          · exact .inl hxa
          · exact .inr ⟨hx, bne_iff_ne.mpr hxa⟩

theorem jsSetDedupAux_nodup :
    ∀ (fuel : Nat) (l : List Str), l.length ≤ fuel → (jsSetDedupAux fuel l).Nodup := by
  intro fuel
  induction fuel with
  | zero =>
    intro l hlen
    cases l with
    | nil => simp [jsSetDedupAux]
    | cons a t => simp at hlen
  | succ fuel ih =>
    intro l hlen
    cases l with
    | nil => simp [jsSetDedupAux]
    | cons a t =>
      have hlen' : (t.filter (· != a)).length ≤ fuel := by
        have := List.length_filter_le (· != a) t
        simp only [List.length_cons] at hlen
        omega
      rw [jsSetDedupAux, List.nodup_cons]
      refine ⟨?_, ih _ hlen'⟩
      intro hmem
      have := (jsSetDedupAux_mem fuel _ hlen' a).mp hmem
      rw [List.mem_filter] at this
      exact absurd this.2 (by simp)

theorem jsSetDedup_mem (l : List Str) (x : Str) : x ∈ jsSetDedup l ↔ x ∈ l :=
  jsSetDedupAux_mem l.length l le_rfl x

theorem jsSetDedup_nodup (l : List Str) : (jsSetDedup l).Nodup :=
  jsSetDedupAux_nodup l.length l le_rfl

/-- C9: `/allstates` returns the distinct state values (exactly the states
occurring in the dataset, as stored), with no duplicates, sorted ascending
in the character-code lexicographic order of `Array.prototype.sort`; and
`/districts/:state` returns the distinct districts of the records whose
state matches case-insensitively, with no duplicates, sorted ascending. -/
theorem distinct_listings (colleges : List College) (st : Str) :
    (allStatesList colleges).Nodup ∧
    List.Sorted strLe (allStatesList colleges) ∧
    (∀ x, x ∈ allStatesList colleges ↔ ∃ c, c ∈ colleges ∧ c.state = x) ∧
    (districtsList colleges st).Nodup ∧
    List.Sorted strLe (districtsList colleges st) ∧
    (∀ x, x ∈ districtsList colleges st ↔
      ∃ c, c ∈ colleges ∧ lowerList c.state = lowerList st ∧ c.district = x) := by
  haveI : IsTotal Str strLe := ⟨lexLe_total⟩
  haveI : IsTrans Str strLe := ⟨lexLe_trans⟩
  refine ⟨?_, List.sorted_insertionSort strLe _, ?_, ?_, List.sorted_insertionSort strLe _, ?_⟩
  · exact (List.perm_insertionSort strLe _).nodup_iff.mpr (jsSetDedup_nodup _)
  · intro x
    rw [allStatesList, List.mem_insertionSort, jsSetDedup_mem, List.mem_map]
  · exact (List.perm_insertionSort strLe _).nodup_iff.mpr (jsSetDedup_nodup _)
  · intro x
    rw [districtsList, List.mem_insertionSort, jsSetDedup_mem, List.mem_map]
    constructor
    · rintro ⟨c, hc, rfl⟩
      rw [List.mem_filter] at hc
      exact ⟨c, hc.1, beq_iff_eq.mp hc.2, rfl⟩
    · rintro ⟨c, hc, hst, rfl⟩
      exact ⟨c, List.mem_filter.mpr ⟨hc, beq_iff_eq.mpr hst⟩, rfl⟩

-- ### Claim C10: queries do not disturb the dataset

theorem mem_mkEnvelope_data {result : List College} {page limit : Nat} {r : College}
    (h : r ∈ (mkEnvelope result page limit).data) : r ∈ result :=
  ((List.take_sublist _ _).trans (List.drop_sublist _ _)).subset h

theorem mem_filter_map_normalize {colleges : List College} {p : College → Bool}
    {r : College} (h : r ∈ (colleges.filter p).map normalizeCollege) :
    ∃ c, c ∈ colleges ∧ r.name = cleanCollegeName c.name ∧ r.state = c.state ∧
      r.district = c.district ∧ r.extra = c.extra := by
  rw [List.mem_map] at h
  obtain ⟨c, hc, rfl⟩ := h
  exact ⟨c, List.mem_of_mem_filter hc, rfl, rfl, rfl, rfl⟩

/-- C10: every record in a returned page of the search, state, or district
endpoint is the object-spread copy of a stored record: every field other
than `name` equals the stored record's field, and `name` is the normalized
stored name.  The handlers are pure functions of the dataset — the stored
records themselves appear unchanged in the existential witnesses. -/
theorem query_frame_effect (colleges : List College) (k s d : Str) (page limit : Nat) :
    (∀ r ∈ (searchResponse colleges k page limit).data, ∃ c, c ∈ colleges ∧
      r.name = cleanCollegeName c.name ∧ r.state = c.state ∧ r.district = c.district ∧
      r.extra = c.extra) ∧
    (∀ r ∈ (stateResponse colleges s page limit).data, ∃ c, c ∈ colleges ∧
      r.name = cleanCollegeName c.name ∧ r.state = c.state ∧ r.district = c.district ∧
      r.extra = c.extra) ∧
    (∀ r ∈ (districtResponse colleges d page limit).data, ∃ c, c ∈ colleges ∧
      r.name = cleanCollegeName c.name ∧ r.state = c.state ∧ r.district = c.district ∧
      r.extra = c.extra) :=
  ⟨fun _ hr => mem_filter_map_normalize (mem_mkEnvelope_data hr),
   fun _ hr => mem_filter_map_normalize (mem_mkEnvelope_data hr),
   fun _ hr => mem_filter_map_normalize (mem_mkEnvelope_data hr)⟩

-- ### Claim C4: the asynchronous CSV load versus serving

theorem loadReach_inv (rows : List College) (s : LoadState) (h : loadReach rows s) :
    s.loaded ++ s.pending = rows ∧ (s.done = true → s.pending = []) := by
  induction h with
  | init => exact ⟨rfl, by simp⟩
  | step hr hs ih =>
    cases hs with
    | row c l p =>
      refine ⟨?_, by simp⟩
      rw [List.append_assoc, List.singleton_append]
      exact ih.1
    | finish l => exact ⟨ih.1, fun _ => rfl⟩

/-- C4 counterexample: the server listens before the CSV stream finishes,
so a request arriving between two `data` events observes a strict
non-empty prefix of the dataset — here `[demoC1]` out of
`[demoC1, demoC2]`, which is neither the empty dataset nor the full one,
contradicting the claim. -/
theorem partial_load_observable :
    loadReach demoColleges ⟨[demoC1], [demoC2], false⟩ ∧
    ¬(([demoC1] : List College) = [] ∨ ([demoC1] : List College) = demoColleges) := by
  constructor
  · exact loadReach.step loadReach.init (loadStep.row demoC1 [] [demoC2])
  · decide

/-- C4 (amended): a request may be served at any point during the load and
then observes some prefix of the final dataset (empty, partial, or full);
once the `end` event has fired the observed dataset is exactly the fully
loaded one. -/
theorem load_observation (rows : List College) (s : LoadState) (h : loadReach rows s) :
    LoadObsOK rows s := by
  obtain ⟨h1, h2⟩ := loadReach_inv rows s h
  refine ⟨⟨s.pending, h1⟩, fun hd => ?_⟩
  rw [← h1, h2 hd, List.append_nil]

/-- Witness for the amended C4 theorem on a concrete reachable state. -/
theorem load_observation_witness : LoadObsOK demoColleges ⟨[], demoColleges, false⟩ :=
  load_observation demoColleges ⟨[], demoColleges, false⟩ loadReach.init

-- ### Claim C3: parameter validation on the GET endpoints

/-- C3 (code bug evaluation): on `GET /colleges/state/TS?page=1&limit=0`
the express-validator chains inspect the (empty) request body, so
validation passes and the handler computes with `limit = 0`: it reaches the
pagination arithmetic and answers HTTP 200 with an empty page and a
non-finite `totalPages` (`Math.ceil(2/0) = Infinity`, modelled `none`)
instead of the HTTP 400 the claim requires.  The second conjunct shows the
declared check itself would reject the string `"0"` had it been applied to
the query parameter. -/
theorem state_handler_accepts_limit_zero :
    stateHandler demoColleges ['T', 'S'] none none (some 1) (some 0) =
      .ok { data := [], page := 1, limit := 0, total := 2, totalPages := none } ∧
    checkOptIntField (some ['0']) 1 (some 100) = false := by
  exact ⟨by decide, by decide⟩

-- ### Claim C2: cache keys and cache transparency

theorem digitChar_toNat (d : Nat) (hd : d < 10) : (digitChar d).toNat = 48 + d := by
  interval_cases d <;> decide

theorem natDigitsAux_digits :
    ∀ (fuel n : Nat), ∀ c ∈ natDigitsAux fuel n, 48 ≤ c.toNat ∧ c.toNat ≤ 57 := by
  intro fuel
  induction fuel with
  | zero => intro n c hc; simp [natDigitsAux] at hc
  | succ fuel ih =>
    intro n c hc
    rw [natDigitsAux] at hc
    by_cases h10 : n < 10
    · rw [if_pos h10] at hc
      simp only [List.mem_singleton] at hc
      subst hc
      rw [digitChar_toNat n h10]
      omega
    · rw [if_neg h10] at hc
      rcases List.mem_append.mp hc with hc | hc
      · exact ih _ c hc
      · simp only [List.mem_singleton] at hc
        subst hc
        have hm : n % 10 < 10 := Nat.mod_lt _ (by norm_num)
        rw [digitChar_toNat _ hm]
        omega

theorem natDigitsAux_foldl :
    ∀ (fuel n init : Nat), n < 10 ^ fuel →
      (natDigitsAux fuel n).foldl (fun a c => 10 * a + (c.toNat - 48)) init =
        init * 10 ^ (natDigitsAux fuel n).length + n := by
  intro fuel
  induction fuel with
  | zero =>
    intro n init hn
    have h0 : n = 0 := by simpa using hn
    subst h0
    simp [natDigitsAux]
  | succ fuel ih =>
    intro n init hn
    by_cases h10 : n < 10
    · rw [natDigitsAux, if_pos h10]
      simp only [List.foldl_cons, List.foldl_nil, List.length_singleton]
      rw [digitChar_toNat n h10, pow_one]
      omega
    · rw [natDigitsAux, if_neg h10]
      rw [List.foldl_append]
      have hdiv : n / 10 < 10 ^ fuel := by
        rw [Nat.div_lt_iff_lt_mul (by norm_num)]
        calc n < 10 ^ (fuel + 1) := hn
        _ = 10 ^ fuel * 10 := by ring
      rw [ih (n / 10) init hdiv]
      have hm : n % 10 < 10 := Nat.mod_lt _ (by norm_num)
      simp only [List.foldl_cons, List.foldl_nil, List.length_append,
        List.length_singleton]
      rw [digitChar_toNat _ hm, pow_succ, ← Nat.mul_assoc]
      have hdm := Nat.div_add_mod n 10
      generalize init * 10 ^ (natDigitsAux fuel (n / 10)).length = A at *
      omega

theorem n_lt_ten_pow (n : Nat) : n < 10 ^ (n + 1) :=
  calc n < 2 ^ n := Nat.lt_two_pow n
  _ ≤ 10 ^ n := Nat.pow_le_pow_left (by norm_num) n
  _ ≤ 10 ^ (n + 1) := Nat.pow_le_pow_right (by norm_num) (by omega)

theorem digitsToNat_natDigits (n : Nat) : digitsToNat (natDigits n) = n := by
  have h := natDigitsAux_foldl (n + 1) n 0 (n_lt_ten_pow n)
  simpa [digitsToNat, natDigits] using h

theorem natDigits_colonFree (n : Nat) : ColonFree (natDigits n) := by
  intro c hc hceq
  have hd := natDigitsAux_digits (n + 1) n c hc
  rw [hceq] at hd
  exact absurd hd (by decide)

theorem splitFirstColon_append (a b : Str) (ha : ColonFree a) :
    splitFirstColon (a ++ ':' :: b) = some (a, b) := by
  induction a with
  | nil => simp [splitFirstColon]
  | cons c t ih =>
    have hc : (c == ':') = false := beq_eq_false_iff_ne.mpr (ha c (by simp))
    have ht : ColonFree t := fun x hx => ha x (by simp [hx])
    rw [List.cons_append, splitFirstColon, hc]
    simp only [Bool.false_eq_true, if_false]
    rw [ih ht]
    rfl

theorem decode3_roundtrip (k : Str) (p l : Nat) :
    decode3 (k ++ ':' :: (natDigits p ++ ':' :: natDigits l)) = some (k, p, l) := by
  have h1 : ColonFree (natDigits l).reverse :=
    fun c hc => natDigits_colonFree l c (List.mem_reverse.mp hc)
  have h2 : ColonFree (natDigits p).reverse :=
    fun c hc => natDigits_colonFree p c (List.mem_reverse.mp hc)
  have hrev : (k ++ ':' :: (natDigits p ++ ':' :: natDigits l)).reverse =
      (natDigits l).reverse ++ ':' :: ((natDigits p).reverse ++ ':' :: k.reverse) := by
    simp [List.reverse_append, List.reverse_cons, List.append_assoc]
  rw [decode3, hrev, splitFirstColon_append _ _ h1]
  simp only [splitFirstColon_append _ _ h2]
  simp [digitsToNat_natDigits]

theorem decodeKey_keyOf : ∀ q : Query, decodeKey (keyOf q) = some q := by
  intro q
  cases q with
  | search k p l =>
    have h1 : ColonFree searchWord := by unfold ColonFree; decide
    simp [keyOf, decodeKey, splitFirstColon_append _ _ h1, decode3_roundtrip]
  | state s p l =>
    have h1 : ColonFree stateWord := by unfold ColonFree; decide
    have hne : stateWord ≠ searchWord := by decide
    simp [keyOf, decodeKey, splitFirstColon_append _ _ h1, decode3_roundtrip, hne]
  | district d p l =>
    have h1 : ColonFree districtWord := by unfold ColonFree; decide
    have hne1 : districtWord ≠ searchWord := by decide
    have hne2 : districtWord ≠ stateWord := by decide
    simp [keyOf, decodeKey, splitFirstColon_append _ _ h1, decode3_roundtrip, hne1, hne2]
  | allstates =>
    have h0 : splitFirstColon allstatesWord = none := by decide
    simp [keyOf, decodeKey, h0]
  | districts s =>
    have h1 : ColonFree districtsWord := by unfold ColonFree; decide
    have hne1 : districtsWord ≠ searchWord := by decide
    have hne2 : districtsWord ≠ stateWord := by decide
    have hne3 : districtsWord ≠ districtWord := by decide
    simp [keyOf, decodeKey, splitFirstColon_append _ _ h1, hne1, hne2, hne3]

/-- Cache keys are collision-free across distinct logical queries. -/
theorem keyOf_injective (q q' : Query) (h : keyOf q = keyOf q') : q = q' := by
  have h1 := decodeKey_keyOf q
  rw [h] at h1
  exact Option.some.inj (h1.symm.trans (decodeKey_keyOf q'))

theorem cacheGet_cacheSet_same (st : List CacheEntry) (key : Str) (v : CacheVal)
    (now : Nat) : cacheGet (cacheSet st key v now) key now = some v := by
  rw [cacheGet, cacheSet, List.find?_cons_of_pos _ (by simp)]
  show (if now < now + 600 then some v else none) = some v
  rw [if_pos (by omega)]

theorem runQuery_correct (colleges : List College) (st : List CacheEntry) (now : Nat)
    (q : Query) (hst : CacheGood colleges st) :
    (runQuery colleges st now q).1 = evalQuery colleges q ∧
      CacheGood colleges (runQuery colleges st now q).2 := by
  cases hGet : cacheGet st (keyOf q) now with
  | some v =>
    have hv : v = evalQuery colleges q := by
      rw [cacheGet] at hGet
      cases hFind : st.find? (fun e => e.key == keyOf q) with
      | none => rw [hFind] at hGet; exact absurd hGet (by simp)
      | some e =>
        rw [hFind] at hGet
        replace hGet : (if now < e.expiry then some e.val else none) = some v := hGet
        by_cases hexp : now < e.expiry
        · rw [if_pos hexp] at hGet
          have hkey : keyOf q = e.key := by
            have hp := List.find?_some hFind
            exact (beq_iff_eq.mp hp).symm
          have hmem := List.mem_of_find?_eq_some hFind
          have hval := hst e hmem q hkey
          rw [← Option.some.inj hGet, hval]
        · rw [if_neg hexp] at hGet; exact absurd hGet (by simp)
    have hrun : runQuery colleges st now q = (v, st) := by
      simp only [runQuery, hGet]
    rw [hrun]
    exact ⟨hv, hst⟩
  | none =>
    have hrun : runQuery colleges st now q =
        (evalQuery colleges q, cacheSet st (keyOf q) (evalQuery colleges q) now) := by
      simp only [runQuery, hGet]
    rw [hrun]
    refine ⟨rfl, ?_⟩
    intro e he q' hk
    rcases List.mem_cons.mp he with rfl | hmem
    · have hq : q' = q := keyOf_injective q' q hk
      rw [hq]
    · exact hst e hmem q' hk

theorem runQueries_correct (colleges : List College) :
    ∀ (qs : List (Nat × Query)) (st : List CacheEntry), CacheGood colleges st →
      runQueries colleges st qs = qs.map fun pr => evalQuery colleges pr.2 := by
  intro qs
  induction qs with
  | nil => intro st _; rfl
  | cons hd tl ih =>
    intro st hst
    obtain ⟨now, q⟩ := hd
    obtain ⟨h1, h2⟩ := runQuery_correct colleges st now q hst
    rw [runQueries, h1, ih _ h2, List.map_cons]

/-- C2: the response cache is observably transparent.  Cache keys are
deterministic and collision-free across distinct logical queries
(`keyOf` is injective); starting from an empty cache, any sequence of
handler invocations at any times serves exactly the directly recomputed
responses for the fixed dataset; and a `Get` immediately after a `Set`
under the same key returns exactly the stored response (entries live 600
seconds). -/
theorem cache_transparency (colleges : List College) (q q' : Query)
    (h : keyOf q = keyOf q') (qs : List (Nat × Query)) (st : List CacheEntry)
    (key : Str) (v : CacheVal) (now : Nat) :
    CacheTransparencyOK colleges q q' qs st key v now :=
  ⟨keyOf_injective q q' h,
    runQueries_correct colleges qs [] (fun e he => absurd he (List.not_mem_nil e)),
    cacheGet_cacheSet_same st key v now⟩

/-- Witness for C2 at concrete queries, trace, and cache state. -/
theorem cache_transparency_witness :
    CacheTransparencyOK demoColleges Query.allstates Query.allstates
      [(0, Query.allstates), (1, Query.allstates)] [] ['k'] (CacheVal.strList []) 5 :=
  cache_transparency demoColleges Query.allstates Query.allstates rfl
    [(0, Query.allstates), (1, Query.allstates)] [] ['k'] (CacheVal.strList []) 5
